import Mathlib

/-
Verification development for the rightCall contact-import workflow
(src/app/(tabs)/index.tsx).

The embedding models the SQLite store as explicit lists of rows, the
device contact snapshots as records of optional fields (expo-contacts
fields may be absent), and the tagging-service round trip as an oracle
from batch index to an optional parsed response body (`none` models a
network failure, an absent body, or a body whose structure failed
validation — all of which the source collapses into "skip this batch").

All definitions are translated from the TypeScript source; comments on
each definition point to the function it embeds.
-/

-- ===== JavaScript string trimming =====

/-- Whitespace test used to model JavaScript String.prototype.trim
(the source compares and stores `x.trim()` values). -/
def jsWS (ch : Char) : Bool := ch.isWhitespace

/-- Drop leading whitespace characters. -/
def ltrimC (l : List Char) : List Char := l.dropWhile jsWS

/-- Drop trailing whitespace characters. -/
def rtrimC (l : List Char) : List Char := (l.reverse.dropWhile jsWS).reverse

/-- Character-list version of JS trim: drop leading and trailing whitespace. -/
def trimChars (l : List Char) : List Char := rtrimC (ltrimC l)

/-- Model of JavaScript `s.trim()`. -/
def jsTrim (s : String) : String := String.mk (trimChars s.data)

/-- Model of the JavaScript idiom `x?.trim() || ""` on an optional string
field: an absent field is treated as the empty string. -/
def jsOptTrim (s : Option String) : String := jsTrim (s.getD "")

theorem dropWhile_idem (p : Char → Bool) (l : List Char) :
    (l.dropWhile p).dropWhile p = l.dropWhile p := by
  induction l with
  | nil => rfl
  | cons a l ih =>
    rw [List.dropWhile_cons]
    by_cases h : p a
    · simp [h, ih]
    · simp [List.dropWhile_cons, h]

theorem dropWhile_cons_of_neg (p : Char → Bool) (a : Char) (l : List Char)
    (h : p a = false) : List.dropWhile p (a :: l) = a :: l := by
  rw [List.dropWhile_cons]; simp [h]

theorem dropWhile_append_single (p : Char → Bool) (a : Char) (h : p a = false)
    (l : List Char) : List.dropWhile p (l ++ [a]) = List.dropWhile p l ++ [a] := by
  induction l with
  | nil => simp [List.dropWhile_cons, h, List.dropWhile]
  | cons b t ih =>
    rw [List.cons_append, List.dropWhile_cons, List.dropWhile_cons]
    by_cases hb : p b <;> simp [hb, ih]

theorem head_false_of_ltrim_fixed (a : Char) (t : List Char)
    (h : ltrimC (a :: t) = a :: t) : jsWS a = false := by
  by_cases ha : jsWS a
  · exfalso
    have h1 : List.dropWhile jsWS (a :: t) = List.dropWhile jsWS t := by
      rw [List.dropWhile_cons]; simp [ha]
    have h2 : (List.dropWhile jsWS t).length ≤ t.length :=
      (((t.dropWhile_sublist jsWS)) : (List.dropWhile jsWS t).Sublist t).length_le
    have h3 : (a :: t).length = t.length + 1 := rfl
    rw [ltrimC, h1] at h
    have := congrArg List.length h
    omega
  · simpa using ha

theorem ltrim_rtrim_fixed (l : List Char) (h : ltrimC l = l) :
    ltrimC (rtrimC l) = rtrimC l := by
  cases l with
  | nil => rfl
  | cons a t =>
    have ha : jsWS a = false := head_false_of_ltrim_fixed a t h
    have : rtrimC (a :: t) = a :: (List.dropWhile jsWS t.reverse).reverse := by
      rw [rtrimC, List.reverse_cons, dropWhile_append_single jsWS a ha t.reverse]
      simp
    rw [this, ltrimC, dropWhile_cons_of_neg jsWS a _ ha]

theorem rtrim_idem (l : List Char) : rtrimC (rtrimC l) = rtrimC l := by
  rw [rtrimC, rtrimC, List.reverse_reverse, dropWhile_idem]

theorem trimChars_idem (l : List Char) : trimChars (trimChars l) = trimChars l := by
  rw [trimChars, trimChars]
  rw [ltrim_rtrim_fixed (ltrimC l) (dropWhile_idem jsWS l), rtrim_idem]

theorem jsTrim_idem (s : String) : jsTrim (jsTrim s) = jsTrim s := by
  rw [jsTrim, jsTrim]
  exact congrArg String.mk (trimChars_idem s.data)

theorem jsTrim_jsOptTrim (s : Option String) : jsTrim (jsOptTrim s) = jsOptTrim s :=
  jsTrim_idem (s.getD "")

-- ===== Data model (schema created by initializeDB) =====

/-- One row of the `contacts` table:
contacts(id PK autoincrement, true_id unique, name, company, jobTitle,
imageAvailable 0|1). The unused rawImage column is never written or read
by the workflow and is omitted. -/
structure ContactRow where
  id : Nat
  true_id : String
  name : String
  company : String
  jobTitle : String
  imageAvailable : Nat
deriving DecidableEq

/-- One row of the `tags` table: tags(id PK autoincrement, name unique). -/
structure TagRow where
  id : Nat
  name : String
deriving DecidableEq

/-- The local SQLite store: the three tables plus the autoincrement
counters. Link rows are (contact_id, tag_id) pairs with a composite
primary key. -/
structure DB where
  contacts : List ContactRow
  tags : List TagRow
  links : List (Nat × Nat)
  nextContactId : Nat
  nextTagId : Nat
deriving DecidableEq

/-- The freshly created store (SQLite AUTOINCREMENT starts at 1). -/
def emptyDB : DB := ⟨[], [], [], 1, 1⟩

/-- A device contact snapshot as returned by expo-contacts: every field
may be absent on a given device. -/
structure DeviceContact where
  id : Option String
  name : Option String
  company : Option String
  jobTitle : Option String
  imageAvailable : Option Bool
deriving DecidableEq

-- ===== Store reads =====

/-- SELECT ... FROM contacts WHERE true_id = ? LIMIT 1 (first matching row). -/
def findContactByTrueId (db : DB) (tid : String) : Option ContactRow :=
  db.contacts.find? (fun r => r.true_id == tid)

/-- getAllTags: SELECT name FROM tags. -/
def getAllTags (db : DB) : List String :=
  db.tags.map (fun r => r.name)

/-- getContactDbId: SELECT id FROM contacts WHERE true_id = ? LIMIT 1.
The source first does `if (!true_id) return null`, which for a string
argument rejects exactly the empty string (falsy in JS). -/
def getContactDbId (db : DB) (tid : String) : Option Nat :=
  if tid == "" then none
  else (findContactByTrueId db tid).map (fun r => r.id)

-- ===== Change detector (checkIfContactChanged) =====

/-- The field comparison of checkIfContactChanged: the stored row differs
from the snapshot if name, company or jobTitle differ as trimmed strings
(`(row.f.trim() || "") !== (c.f?.trim() || "")`; note `x.trim() || ""`
equals `x.trim()`), or the stored 0/1 image flag differs from the
device's boolean (`c.imageAvailable || false`). -/
def contactDiffers (row : ContactRow) (c : DeviceContact) : Bool :=
  (jsTrim row.name != jsOptTrim c.name) ||
  (jsTrim row.company != jsOptTrim c.company) ||
  (jsTrim row.jobTitle != jsOptTrim c.jobTitle) ||
  ((row.imageAvailable == 1) != c.imageAvailable.getD false)

/-- checkIfContactChanged: a contact with no id is reported changed (the
caller has already filtered those out); otherwise look up the stored row
by true_id — no row means new, a row means changed iff a tracked field
differs. -/
def checkIfContactChanged (db : DB) (c : DeviceContact) : Bool :=
  match c.id with
  | none => true
  | some tid =>
    match findContactByTrueId db tid with
    | none => true
    | some row => contactDiffers row c

-- ===== Persistence writer primitives =====

/-- The row values written for a device contact: trimmed strings (absent
treated as ""), image flag stored as 0/1. -/
def deviceRow (idNum : Nat) (tid : String) (c : DeviceContact) : ContactRow :=
  { id := idNum, true_id := tid,
    name := jsOptTrim c.name, company := jsOptTrim c.company,
    jobTitle := jsOptTrim c.jobTitle,
    imageAvailable := if c.imageAvailable.getD false then 1 else 0 }

/-- upsertContact: INSERT OR REPLACE INTO contacts with
id = (SELECT id FROM contacts WHERE true_id = ?). When a row with this
true_id exists the subselect pins the old primary key, so SQLite replaces
that row in place (same id, new field values); otherwise the subselect is
NULL and a fresh autoincrement id is assigned. The app never issues
PRAGMA foreign_keys = ON, and SQLite leaves foreign-key enforcement (and
hence the ON DELETE CASCADE on contact_tags) off by default, so the
replace does not touch link rows. Contacts without an id are skipped. -/
def upsertContact (db : DB) (c : DeviceContact) : DB :=
  match c.id with
  | none => db
  | some tid =>
    match findContactByTrueId db tid with
    | some row =>
      { db with contacts :=
          db.contacts.map (fun r => if r.id == row.id then deviceRow row.id tid c else r) }
    | none =>
      { db with contacts := db.contacts ++ [deviceRow db.nextContactId tid c],
                nextContactId := db.nextContactId + 1 }

/-- upsertTag: trim the name; an empty result returns null without
touching the store. Otherwise SELECT id FROM tags WHERE name = ?; reuse
the id when found, else INSERT and return lastInsertRowId. (The source's
`row && row.id` truthiness guard is vacuous here: AUTOINCREMENT ids are
always ≥ 1, never the falsy 0.) -/
def upsertTag (db : DB) (tagName : String) : Option Nat × DB :=
  if jsTrim tagName == "" then (none, db)
  else
    match db.tags.find? (fun r => r.name == jsTrim tagName) with
    | some row => (some row.id, db)
    | none =>
      (some db.nextTagId,
       { db with tags := db.tags ++ [⟨db.nextTagId, jsTrim tagName⟩],
                 nextTagId := db.nextTagId + 1 })

/-- linkContactToTag: `if (!contact_id || !tag_id) return` (null or the
falsy 0 skip the link), then INSERT OR IGNORE INTO contact_tags — the
composite primary key makes a repeated (contact, tag) pair a no-op. -/
def linkContactToTag (db : DB) (contact_id : Nat) (tag_id : Option Nat) : DB :=
  match tag_id with
  | none => db
  | some t =>
    if contact_id == 0 || t == 0 then db
    else if (contact_id, t) ∈ db.links then db
    else { db with links := db.links ++ [(contact_id, t)] }

/-- One per-contact tag assignment parsed out of a service response:
`{ true_id, tags }`. -/
structure TagAssignment where
  true_id : String
  tags : List String
deriving DecidableEq

/-- The inner tag loop of the transaction body: for each tag name, upsert
the tag row and link it to the contact. -/
def linkTags (db : DB) (cid : Nat) (tags : List String) : DB :=
  tags.foldl (fun d tagName =>
    let r := upsertTag d tagName
    linkContactToTag r.2 cid r.1) db

/-- One iteration of the `for (const item of extractedTagInfo)` loop in
the transaction: resolve the contact's internal id from true_id (skip
silently when unresolvable or falsy), then upsert-and-link every tag. -/
def processItem (db : DB) (it : TagAssignment) : DB :=
  match getContactDbId db it.true_id with
  | none => db
  | some cid => if cid == 0 then db else linkTags db cid it.tags

/-- The full body of the db.withTransactionSync block in importContacts:
upsert every new-or-edited contact, then process every per-contact tag
assignment returned by the synthesizer. -/
def persistRun (db : DB) (newOrEdited : List DeviceContact)
    (extracted : List TagAssignment) : DB :=
  extracted.foldl processItem (newOrEdited.foldl upsertContact db)

-- ===== Tag synthesizer (extractTagsFromAI) =====

/-- One entry of a parsed service response body, before the per-contact
tags validation: the `tags` field is `some l` when it was a JSON list and
`none` when it was any non-list value. -/
structure RawAIContact where
  true_id : String
  tagsField : Option (List String)
deriving DecidableEq

/-- Per-batch validation of the service response. `none` stands for a
network failure, an absent body, a JSON parse error or a body without the
expected `contacts` list — all of which the source catches, logs and
skips (the batch contributes nothing). A parsed batch maps each entry to
an assignment, replacing a non-list `tags` field by the empty list. -/
def parseBatch : Option (List RawAIContact) → List TagAssignment
  | none => []
  | some raws => raws.map (fun r => TagAssignment.mk r.true_id (r.tagsField.getD []))

/-- The vocabulary update after a batch: for each returned tag name, push
it onto the vocabulary unless already present (the source's
`if (!existingTags.includes(tag)) existingTags.push(tag)`). -/
def addNewTags (vocab : List String) (newTags : List String) : List String :=
  newTags.foldl (fun acc t => if t ∈ acc then acc else acc ++ [t]) vocab

/-- The payload sent to the tagging service for one batch: the batch's
contacts and the vocabulary snapshot at submission time. -/
structure BatchRequest where
  contacts : List DeviceContact
  existing_tags : List String
deriving DecidableEq

/-- Loop state of extractTagsFromAI: `allExtractedTags` accumulated so
far, the current (growing) vocabulary, and the log of requests submitted
so far. -/
structure ExtractState where
  assignments : List TagAssignment
  vocab : List String
  requests : List BatchRequest
deriving DecidableEq

/-- One iteration of the batch loop: submit the batch with the current
vocabulary; on a validated response append its assignments and fold its
tag names into the vocabulary, otherwise leave both untouched. -/
def extractStep (resp : Nat → Option (List RawAIContact)) (k : Nat)
    (batch : List DeviceContact) (st : ExtractState) : ExtractState :=
  let st1 : ExtractState :=
    { st with requests := st.requests ++ [BatchRequest.mk batch st.vocab] }
  match resp k with
  | none => st1
  | some raws =>
    let extracted := parseBatch (some raws)
    { st1 with
        assignments := st1.assignments ++ extracted,
        vocab := extracted.foldl (fun v a => addNewTags v a.tags) st1.vocab }

/-- The batch size constant of extractTagsFromAI. -/
def batchSize : Nat := 35

/-- The `for (let i = 0; i < contacts.length; i += batchSize)` loop:
process the slice `contacts.slice(i, i + batchSize)` as batch number k,
strictly sequentially. -/
def extractGo (contacts : List DeviceContact) (resp : Nat → Option (List RawAIContact))
    (i k : Nat) (st : ExtractState) : ExtractState :=
  if i < contacts.length then
    extractGo contacts resp (i + batchSize) (k + 1)
      (extractStep resp k ((contacts.drop i).take batchSize) st)
  else st
termination_by contacts.length - i
decreasing_by simp [batchSize]; omega

/-- extractTagsFromAI: batch the changed contacts, submit each batch with
the vocabulary accumulated so far, and collect all successfully parsed
per-contact assignments. -/
def extractTagsFromAI (contacts : List DeviceContact) (existingTags : List String)
    (resp : Nat → Option (List RawAIContact)) : ExtractState :=
  extractGo contacts resp 0 0 (ExtractState.mk [] existingTags [])

-- ===== Import workflow (importContacts) =====

/-- The new-or-edited subset gathered by importContacts: device contacts
with an id that checkIfContactChanged reports changed, in source order. -/
def newOrEditedOf (db : DB) (data : List DeviceContact) : List DeviceContact :=
  data.filter (fun c => c.id.isSome && checkIfContactChanged db c)

/-- importContacts, returning the updated store and the number of
tagging-service requests made. Aborts (leaving the store untouched, zero
requests) when permission is not granted, the device list is empty, or no
contact is new or edited; otherwise reads the vocabulary, runs the
synthesizer on the changed subset, and commits the writer's transaction. -/
def importRunFull (granted : Bool) (data : List DeviceContact)
    (resp : Nat → Option (List RawAIContact)) (db : DB) : DB × Nat :=
  if !granted then (db, 0)
  else if data.isEmpty then (db, 0)
  else
    let ne := newOrEditedOf db data
    if ne.isEmpty then (db, 0)
    else
      let st := extractTagsFromAI ne (getAllTags db) resp
      (persistRun db ne st.assignments, st.requests.length)

/-- The store after one importContacts run. -/
def importRun (granted : Bool) (data : List DeviceContact)
    (resp : Nat → Option (List RawAIContact)) (db : DB) : DB :=
  (importRunFull granted data resp db).1

-- ===== Transaction model (db.withTransactionSync) =====

/-- The primitive statements executed inside the transaction of
importContacts, in order: first one upsert per changed contact, then one
resolve-and-link step per synthesizer assignment. -/
inductive WriteOp where
  | upsertC (c : DeviceContact)
  | linkItem (it : TagAssignment)
deriving DecidableEq

/-- Execute one transaction-body operation. -/
def applyOp (db : DB) : WriteOp → DB
  | .upsertC c => upsertContact db c
  | .linkItem it => processItem db it

/-- The operation list of one run's transaction body. -/
def writeOps (ne : List DeviceContact) (ex : List TagAssignment) : List WriteOp :=
  ne.map WriteOp.upsertC ++ ex.map WriteOp.linkItem

/-- Run the transaction body op by op; `failAt = some j` models a failure
(an exception thrown by the j-th remaining statement), which produces no
final state. -/
def runOpsAborting (db : DB) : List WriteOp → Option Nat → Option DB
  | [], _ => some db
  | _ :: _, some 0 => none
  | op :: rest, some (j+1) => runOpsAborting (applyOp db op) rest (some j)
  | op :: rest, none => runOpsAborting (applyOp db op) rest none

/-- Model of expo-sqlite's db.withTransactionSync: the body runs inside
BEGIN/COMMIT and any exception rolls the store back to its state at
entry. -/
def withTransactionSync (db : DB) (ops : List WriteOp) (failAt : Option Nat) : DB :=
  (runOpsAborting db ops failAt).getD db

-- ===== Generic list helpers =====

theorem foldl_preserve {σ α : Type} (P : σ → Prop) (f : σ → α → σ)
    (hf : ∀ d a, P d → P (f d a)) (l : List α) (d : σ) (hd : P d) :
    P (l.foldl f d) := by
  induction l generalizing d with
  | nil => exact hd
  | cons a l ih => exact ih (f d a) (hf d a hd)

theorem find?_map_of_pred_eq {α : Type} (g : α → α) (p : α → Bool) (l : List α)
    (h1 : ∀ r ∈ l, p (g r) = p r) (h2 : ∀ r ∈ l, p r = true → g r = r) :
    (l.map g).find? p = l.find? p := by
  induction l with
  | nil => rfl
  | cons a l ih =>
    have ha : p (g a) = p a := h1 a (by simp)
    rw [List.map_cons]
    cases hpa : p a with
    | true =>
      rw [List.find?_cons_of_pos _ (ha.trans hpa), List.find?_cons_of_pos _ hpa,
        h2 a (by simp) hpa]
    | false =>
      rw [List.find?_cons_of_neg _ (by simp [ha, hpa]), List.find?_cons_of_neg _ (by simp [hpa])]
      exact ih (fun r hr => h1 r (by simp [hr])) (fun r hr => h2 r (by simp [hr]))

theorem find?_map_replace {α : Type} (g : α → α) (p : α → Bool) (row : α) (l : List α)
    (hmem : row ∈ l) (hg : ∀ r ∈ l, r ≠ row → g r = r ∧ p r = false)
    (hgrow : p (g row) = true) :
    (l.map g).find? p = some (g row) := by
  induction l with
  | nil => cases hmem
  | cons a l ih =>
    rw [List.map_cons]
    by_cases har : a = row
    · subst har
      rw [List.find?_cons_of_pos _ hgrow]
    · obtain ⟨hga, hpa⟩ := hg a (by simp) har
      rw [hga, List.find?_cons_of_neg _ (by simp [hpa])]
      have hmem' : row ∈ l := by
        rcases List.mem_cons.mp hmem with h | h
        · exact absurd h.symm har
        · exact h
      exact ih hmem' (fun r hr hne => hg r (by simp [hr]) hne)

theorem eq_of_map_nodup {α β : Type} (f : α → β) (l : List α) (h : (l.map f).Nodup)
    (a b : α) (ha : a ∈ l) (hb : b ∈ l) (hf : f a = f b) : a = b := by
  induction l with
  | nil => cases ha
  | cons x l ih =>
    rw [List.map_cons, List.nodup_cons] at h
    rcases List.mem_cons.mp ha with rfl | ha'
    · rcases List.mem_cons.mp hb with rfl | hb'
      · rfl
      · exact absurd (hf ▸ List.mem_map_of_mem f hb') h.1
    · rcases List.mem_cons.mp hb with rfl | hb'
      · exact absurd (hf ▸ List.mem_map_of_mem f ha') h.1
      · exact ih h.2 ha' hb'

theorem eq_of_filterMap_id_nodup (data : List DeviceContact)
    (hnd : (data.filterMap (fun x => x.id)).Nodup)
    (c c' : DeviceContact) (hc : c ∈ data) (hc' : c' ∈ data) (tid : String)
    (h1 : c.id = some tid) (h2 : c'.id = some tid) : c = c' := by
  induction data with
  | nil => cases hc
  | cons a l ih =>
    rcases List.mem_cons.mp hc with rfl | hcl
    · rcases List.mem_cons.mp hc' with rfl | hcl'
      · rfl
      · exfalso
        rw [List.filterMap_cons, h1, List.nodup_cons] at hnd
        exact hnd.1 (List.mem_filterMap.mpr ⟨c', hcl', h2⟩)
    · rcases List.mem_cons.mp hc' with rfl | hcl'
      · exfalso
        rw [List.filterMap_cons, h2, List.nodup_cons] at hnd
        exact hnd.1 (List.mem_filterMap.mpr ⟨c, hcl, h1⟩)
      · apply ih _ hcl hcl'
        rw [List.filterMap_cons] at hnd
        cases ha : a.id with
        | none => rw [ha] at hnd; exact hnd
        | some v => rw [ha, List.nodup_cons] at hnd; exact hnd.2

-- ===== Projection lemmas: which tables each primitive touches =====

theorem upsertContact_tags (db : DB) (c : DeviceContact) :
    (upsertContact db c).tags = db.tags := by
  unfold upsertContact
  cases c.id with
  | none => rfl
  | some tid =>
    cases h : findContactByTrueId db tid with
    | none => simp [h]
    | some row => simp [h]

theorem upsertContact_links (db : DB) (c : DeviceContact) :
    (upsertContact db c).links = db.links := by
  unfold upsertContact
  cases c.id with
  | none => rfl
  | some tid =>
    cases h : findContactByTrueId db tid with
    | none => simp [h]
    | some row => simp [h]

theorem upsertContact_nextTagId (db : DB) (c : DeviceContact) :
    (upsertContact db c).nextTagId = db.nextTagId := by
  unfold upsertContact
  cases c.id with
  | none => rfl
  | some tid =>
    cases h : findContactByTrueId db tid with
    | none => simp [h]
    | some row => simp [h]

theorem upsertTag_contacts (db : DB) (t : String) :
    ((upsertTag db t).2).contacts = db.contacts := by
  unfold upsertTag
  split
  · rfl
  · split <;> rfl

theorem upsertTag_links (db : DB) (t : String) :
    ((upsertTag db t).2).links = db.links := by
  unfold upsertTag
  split
  · rfl
  · split <;> rfl

theorem upsertTag_nextContactId (db : DB) (t : String) :
    ((upsertTag db t).2).nextContactId = db.nextContactId := by
  unfold upsertTag
  split
  · rfl
  · split <;> rfl

theorem linkContactToTag_contacts (db : DB) (cid : Nat) (tid : Option Nat) :
    (linkContactToTag db cid tid).contacts = db.contacts := by
  cases tid with
  | none => rfl
  | some t =>
    simp only [linkContactToTag]
    split
    · rfl
    · split <;> rfl

theorem linkContactToTag_tags (db : DB) (cid : Nat) (tid : Option Nat) :
    (linkContactToTag db cid tid).tags = db.tags := by
  cases tid with
  | none => rfl
  | some t =>
    simp only [linkContactToTag]
    split
    · rfl
    · split <;> rfl

theorem linkContactToTag_nextContactId (db : DB) (cid : Nat) (tid : Option Nat) :
    (linkContactToTag db cid tid).nextContactId = db.nextContactId := by
  cases tid with
  | none => rfl
  | some t =>
    simp only [linkContactToTag]
    split
    · rfl
    · split <;> rfl

theorem linkContactToTag_nextTagId (db : DB) (cid : Nat) (tid : Option Nat) :
    (linkContactToTag db cid tid).nextTagId = db.nextTagId := by
  cases tid with
  | none => rfl
  | some t =>
    simp only [linkContactToTag]
    split
    · rfl
    · split <;> rfl

theorem linkTags_contacts (db : DB) (cid : Nat) (tags : List String) :
    (linkTags db cid tags).contacts = db.contacts := by
  unfold linkTags
  exact foldl_preserve (fun d => d.contacts = db.contacts)
    (fun d tagName => linkContactToTag (upsertTag d tagName).2 cid (upsertTag d tagName).1)
    (fun d a hd => by dsimp only; rw [linkContactToTag_contacts, upsertTag_contacts]; exact hd)
    tags db rfl

theorem linkTags_nextContactId (db : DB) (cid : Nat) (tags : List String) :
    (linkTags db cid tags).nextContactId = db.nextContactId := by
  unfold linkTags
  exact foldl_preserve (fun d => d.nextContactId = db.nextContactId)
    (fun d tagName => linkContactToTag (upsertTag d tagName).2 cid (upsertTag d tagName).1)
    (fun d a hd => by dsimp only; rw [linkContactToTag_nextContactId, upsertTag_nextContactId]; exact hd)
    tags db rfl

theorem processItem_contacts (db : DB) (it : TagAssignment) :
    (processItem db it).contacts = db.contacts := by
  unfold processItem
  cases getContactDbId db it.true_id with
  | none => rfl
  | some cid =>
    by_cases h : cid == 0
    · simp [h]
    · simp [h, linkTags_contacts]

theorem processItem_nextContactId (db : DB) (it : TagAssignment) :
    (processItem db it).nextContactId = db.nextContactId := by
  unfold processItem
  cases getContactDbId db it.true_id with
  | none => rfl
  | some cid =>
    by_cases h : cid == 0
    · simp [h]
    · simp [h, linkTags_nextContactId]

theorem persistRun_contacts (db : DB) (ne : List DeviceContact) (ex : List TagAssignment) :
    (persistRun db ne ex).contacts = (ne.foldl upsertContact db).contacts := by
  unfold persistRun
  exact foldl_preserve
    (fun d => d.contacts = (ne.foldl upsertContact db).contacts)
    processItem
    (fun d a hd => by dsimp only; rw [processItem_contacts]; exact hd) ex _ rfl

-- ===== Well-formedness of the contacts table =====

/-- Invariants SQLite guarantees for the contacts table: primary keys are
unique, true_id is UNIQUE, and every id is below the autoincrement
counter. -/
def ContactsWF (db : DB) : Prop :=
  (db.contacts.map (fun r => r.id)).Nodup ∧
  (db.contacts.map (fun r => r.true_id)).Nodup ∧
  ∀ r ∈ db.contacts, r.id < db.nextContactId

theorem emptyDB_contactsWF : ContactsWF emptyDB := by
  refine ⟨?_, ?_, ?_⟩ <;> simp [emptyDB]

theorem findContact_mem (db : DB) (tid : String) (row : ContactRow)
    (h : findContactByTrueId db tid = some row) : row ∈ db.contacts :=
  List.mem_of_find?_eq_some h

theorem findContact_true_id (db : DB) (tid : String) (row : ContactRow)
    (h : findContactByTrueId db tid = some row) : row.true_id = tid := by
  have := List.find?_some h
  simpa using this

theorem findContact_none (db : DB) (tid : String)
    (h : findContactByTrueId db tid = none) : ∀ r ∈ db.contacts, r.true_id ≠ tid := by
  intro r hr
  have := List.find?_eq_none.mp h r hr
  simpa using this

theorem find?_eq_of_mem_of_nodup {α β : Type} [BEq β] [LawfulBEq β] (f : α → β)
    (l : List α) (hn : (l.map f).Nodup) (a : α) (ha : a ∈ l) (v : β) (hv : f a = v) :
    l.find? (fun x => f x == v) = some a := by
  induction l with
  | nil => cases ha
  | cons x l ih =>
    rw [List.map_cons, List.nodup_cons] at hn
    rcases List.mem_cons.mp ha with rfl | ha'
    · exact List.find?_cons_of_pos _ (by simp [hv])
    · have hfx : f x ≠ v := by
        intro he
        exact hn.1 (by rw [he, ← hv]; exact List.mem_map_of_mem f ha')
      rw [List.find?_cons_of_neg _ (by simp [hfx])]
      exact ih hn.2 ha'

theorem findContact_eq_of_mem (db : DB) (tid : String) (row : ContactRow)
    (hwf : ContactsWF db) (hmem : row ∈ db.contacts) (hrow : row.true_id = tid) :
    findContactByTrueId db tid = some row := by
  unfold findContactByTrueId
  exact find?_eq_of_mem_of_nodup (fun r => r.true_id) db.contacts hwf.2.1 row hmem tid hrow

theorem upsertContact_noId (db : DB) (c : DeviceContact) (hc : c.id = none) :
    upsertContact db c = db := by
  simp only [upsertContact, hc]

theorem upsertContact_found (db : DB) (c : DeviceContact) (tid : String) (row : ContactRow)
    (hc : c.id = some tid) (hf : findContactByTrueId db tid = some row) :
    upsertContact db c
      = { db with contacts :=
            db.contacts.map (fun r => if r.id == row.id then deviceRow row.id tid c else r) } := by
  simp only [upsertContact, hc, hf]

theorem upsertContact_new (db : DB) (c : DeviceContact) (tid : String)
    (hc : c.id = some tid) (hf : findContactByTrueId db tid = none) :
    upsertContact db c
      = { db with contacts := db.contacts ++ [deviceRow db.nextContactId tid c],
                  nextContactId := db.nextContactId + 1 } := by
  simp only [upsertContact, hc, hf]

theorem upsertContact_wf (db : DB) (c : DeviceContact) (h : ContactsWF db) :
    ContactsWF (upsertContact db c) := by
  obtain ⟨hids, htids, hbound⟩ := h
  cases hc : c.id with
  | none => rw [upsertContact_noId db c hc]; exact ⟨hids, htids, hbound⟩
  | some tid =>
    cases hf : findContactByTrueId db tid with
    | some row =>
      rw [upsertContact_found db c tid row hc hf]
      have hrowmem : row ∈ db.contacts := findContact_mem db tid row hf
      have hrowtid : row.true_id = tid := findContact_true_id db tid row hf
      have hidptw : ∀ r ∈ db.contacts,
          (if (r.id == row.id) = true then deviceRow row.id tid c else r).id = r.id := by
        intro r hr
        by_cases hc2 : (r.id == row.id) = true
        · simp only [hc2, if_true, deviceRow]
          exact (beq_iff_eq.mp hc2).symm
        · simp [hc2]
      have htidptw : ∀ r ∈ db.contacts,
          (if (r.id == row.id) = true then deviceRow row.id tid c else r).true_id
            = r.true_id := by
        intro r hr
        by_cases hc2 : (r.id == row.id) = true
        · have hre : r = row :=
            eq_of_map_nodup _ db.contacts hids r row hr hrowmem (beq_iff_eq.mp hc2)
          subst hre
          simp only [hc2, if_true, deviceRow]
          exact hrowtid.symm
        · simp [hc2]
      refine ⟨?_, ?_, ?_⟩
      · show ((db.contacts.map fun r =>
            if r.id == row.id then deviceRow row.id tid c else r).map
              (fun r => r.id)).Nodup
        rw [List.map_map]
        have heq : db.contacts.map ((fun r => r.id) ∘ fun r =>
            if r.id == row.id then deviceRow row.id tid c else r)
              = db.contacts.map (fun r => r.id) :=
          List.map_congr_left (fun r hr => hidptw r hr)
        rw [heq]
        exact hids
      · show ((db.contacts.map fun r =>
            if r.id == row.id then deviceRow row.id tid c else r).map
              (fun r => r.true_id)).Nodup
        rw [List.map_map]
        have heq : db.contacts.map ((fun r => r.true_id) ∘ fun r =>
            if r.id == row.id then deviceRow row.id tid c else r)
              = db.contacts.map (fun r => r.true_id) :=
          List.map_congr_left (fun r hr => htidptw r hr)
        rw [heq]
        exact htids
      · intro r hr
        rcases List.mem_map.mp hr with ⟨r0, hr0, hrr0⟩
        have hre : r.id = r0.id := by rw [← hrr0]; exact hidptw r0 hr0
        rw [hre]
        exact hbound r0 hr0
    | none =>
      rw [upsertContact_new db c tid hc hf]
      refine ⟨?_, ?_, ?_⟩
      · show ((db.contacts ++ [deviceRow db.nextContactId tid c]).map
            (fun r => r.id)).Nodup
        rw [List.map_append, List.nodup_append]
        refine ⟨hids, by simp, ?_⟩
        intro x hx hx2
        rcases List.mem_map.mp hx with ⟨r, hr, hrid⟩
        have hb := hbound r hr
        have hxeq : x = db.nextContactId := by
          simpa [deviceRow] using hx2
        omega
      · show ((db.contacts ++ [deviceRow db.nextContactId tid c]).map
            (fun r => r.true_id)).Nodup
        rw [List.map_append, List.nodup_append]
        refine ⟨htids, by simp, ?_⟩
        intro x hx hx2
        rcases List.mem_map.mp hx with ⟨r, hr, hrtid⟩
        have hxeq : x = tid := by simpa [deviceRow] using hx2
        exact findContact_none db tid hf r hr (hrtid.trans hxeq)
      · intro r hr
        show r.id < db.nextContactId + 1
        rcases List.mem_append.mp hr with hr' | hr'
        · have := hbound r hr'
          omega
        · have hre : r = deviceRow db.nextContactId tid c := by simpa using hr'
          subst hre
          simp [deviceRow]

-- ===== Effect of upserts on lookups by true_id =====

theorem upsert_find_other (db : DB) (c : DeviceContact) (tid : String)
    (hwf : ContactsWF db) (hne : c.id ≠ some tid) :
    findContactByTrueId (upsertContact db c) tid = findContactByTrueId db tid := by
  obtain ⟨hids, htids, hbound⟩ := hwf
  cases hc : c.id with
  | none => rw [upsertContact_noId db c hc]
  | some tid' =>
    have htid : tid' ≠ tid := by
      intro h
      exact hne (by rw [hc, h])
    cases hf : findContactByTrueId db tid' with
    | none =>
      rw [upsertContact_new db c tid' hc hf]
      show ((db.contacts ++ [deviceRow db.nextContactId tid' c]).find?
        (fun r => r.true_id == tid)) = findContactByTrueId db tid
      rw [List.find?_append]
      have h1 : ([deviceRow db.nextContactId tid' c].find? (fun r => r.true_id == tid))
          = none := by
        simp [deviceRow, htid]
      rw [h1, Option.or_none]
      rfl
    | some row =>
      rw [upsertContact_found db c tid' row hc hf]
      show ((db.contacts.map (fun r => if r.id == row.id then deviceRow row.id tid' c else r)).find?
        (fun r => r.true_id == tid)) = findContactByTrueId db tid
      have hrowmem : row ∈ db.contacts := findContact_mem db tid' row hf
      have hrowtid : row.true_id = tid' := findContact_true_id db tid' row hf
      rw [find?_map_of_pred_eq _ _ db.contacts ?_ ?_]
      · rfl
      · intro r hr
        by_cases hc2 : (r.id == row.id) = true
        · have hre : r = row :=
            eq_of_map_nodup _ db.contacts hids r row hr hrowmem (beq_iff_eq.mp hc2)
          subst hre
          simp [hc2, deviceRow, htid, hrowtid]
        · simp [hc2]
      · intro r hr hpr
        have hrne : r ≠ row := by
          intro hre
          subst hre
          rw [hrowtid] at hpr
          exact htid (by simpa using hpr)
        have : ¬ (r.id == row.id) = true := by
          intro hc2
          exact hrne (eq_of_map_nodup _ db.contacts hids r row hr hrowmem (beq_iff_eq.mp hc2))
        simp [this]

theorem upsert_find_self (db : DB) (c : DeviceContact) (tid : String)
    (hwf : ContactsWF db) (hc : c.id = some tid) :
    ∃ n, findContactByTrueId (upsertContact db c) tid = some (deviceRow n tid c) := by
  obtain ⟨hids, htids, hbound⟩ := hwf
  cases hf : findContactByTrueId db tid with
  | none =>
    refine ⟨db.nextContactId, ?_⟩
    rw [upsertContact_new db c tid hc hf]
    show ((db.contacts ++ [deviceRow db.nextContactId tid c]).find?
      (fun r => r.true_id == tid)) = some (deviceRow db.nextContactId tid c)
    rw [List.find?_append]
    have h0 : findContactByTrueId db tid = none := hf
    rw [show db.contacts.find? (fun r => r.true_id == tid) = none from h0]
    simp [deviceRow]
  | some row =>
    refine ⟨row.id, ?_⟩
    rw [upsertContact_found db c tid row hc hf]
    show ((db.contacts.map (fun r => if r.id == row.id then deviceRow row.id tid c else r)).find?
      (fun r => r.true_id == tid)) = some (deviceRow row.id tid c)
    have hrowmem : row ∈ db.contacts := findContact_mem db tid row hf
    have hrowtid : row.true_id = tid := findContact_true_id db tid row hf
    have hmain := find?_map_replace
      (fun r => if r.id == row.id then deviceRow row.id tid c else r)
      (fun r => r.true_id == tid) row db.contacts hrowmem ?_ ?_
    · rw [hmain]
      simp
    · intro r hr hrne
      constructor
      · have : ¬ (r.id == row.id) = true := by
          intro hc2
          exact hrne (eq_of_map_nodup _ db.contacts hids r row hr hrowmem (beq_iff_eq.mp hc2))
        simp [this]
      · have : r.true_id ≠ tid := by
          intro he
          exact hrne (eq_of_map_nodup _ db.contacts htids r row hr hrowmem
            (by rw [he, hrowtid]))
        simp [this]
    · simp [deviceRow]

theorem foldl_upsert_wf (ne : List DeviceContact) (db : DB) (h : ContactsWF db) :
    ContactsWF (ne.foldl upsertContact db) :=
  foldl_preserve ContactsWF upsertContact (fun d a hd => upsertContact_wf d a hd) ne db h

theorem foldl_upsert_find_other (ne : List DeviceContact) (db : DB) (tid : String)
    (hwf : ContactsWF db) (hno : ∀ c' ∈ ne, c'.id ≠ some tid) :
    findContactByTrueId (ne.foldl upsertContact db) tid = findContactByTrueId db tid := by
  induction ne generalizing db with
  | nil => rfl
  | cons c' rest ih =>
    rw [List.foldl_cons]
    rw [ih (upsertContact db c') (upsertContact_wf db c' hwf)
      (fun x hx => hno x (List.mem_cons_of_mem c' hx))]
    exact upsert_find_other db c' tid hwf (hno c' (List.mem_cons_self c' rest))

theorem foldl_upsert_find_self (ne : List DeviceContact) (db : DB) (c : DeviceContact)
    (tid : String) (hwf : ContactsWF db) (hc : c ∈ ne) (hid : c.id = some tid)
    (hnd : (ne.filterMap (fun x => x.id)).Nodup) :
    ∃ n, findContactByTrueId (ne.foldl upsertContact db) tid = some (deviceRow n tid c) := by
  induction ne generalizing db with
  | nil => cases hc
  | cons c' rest ih =>
    rw [List.foldl_cons]
    by_cases hcc : c = c'
    · subst hcc
      have hno : ∀ x ∈ rest, x.id ≠ some tid := by
        intro x hx hxid
        rw [List.filterMap_cons, hid, List.nodup_cons] at hnd
        exact hnd.1 (List.mem_filterMap.mpr ⟨x, hx, hxid⟩)
      obtain ⟨n, hn⟩ := upsert_find_self db c tid hwf hid
      refine ⟨n, ?_⟩
      rw [foldl_upsert_find_other rest (upsertContact db c) tid
        (upsertContact_wf db c hwf) hno]
      exact hn
    · have hc' : c ∈ rest := by
        rcases List.mem_cons.mp hc with h | h
        · exact absurd h hcc
        · exact h
      have hnd' : (rest.filterMap (fun x => x.id)).Nodup := by
        rw [List.filterMap_cons] at hnd
        cases ha : c'.id with
        | none => rw [ha] at hnd; exact hnd
        | some v => rw [ha, List.nodup_cons] at hnd; exact hnd.2
      exact ih (upsertContact db c') (upsertContact_wf db c' hwf) hc' hnd'

theorem contactDiffers_deviceRow (n : Nat) (tid : String) (c : DeviceContact) :
    contactDiffers (deviceRow n tid c) c = false := by
  unfold contactDiffers deviceRow
  simp only [jsTrim_jsOptTrim, bne_self_eq_false, Bool.or_self, Bool.false_or]
  cases hb : c.imageAvailable.getD false <;> simp [hb]

-- ===== Batch-level characterization of the synthesizer loop =====

/-- Concatenation of a list of lists, in order. -/
def concatAll {α : Type} : List (List α) → List α
  | [] => []
  | a :: l => a ++ concatAll l

/-- Consecutive chunks of size n (the last chunk possibly smaller):
the partition produced by `slice(i, i + n)` with stride n. -/
def chunksOf {α : Type} (n : Nat) : List α → List (List α)
  | [] => []
  | a :: l => (a :: l.take (n-1)) :: chunksOf n (l.drop (n-1))
termination_by l => l.length
decreasing_by simp [List.length_drop]; omega

/-- The synthesizer loop expressed over an explicit list of batches. -/
def goChunks (resp : Nat → Option (List RawAIContact)) :
    List (List DeviceContact) → Nat → ExtractState → ExtractState
  | [], _, st => st
  | b :: bs, k, st => goChunks resp bs (k + 1) (extractStep resp k b st)

/-- The per-batch parsed outputs for m consecutive batches starting at
batch index k (a failed batch contributes the empty list). -/
def batchOutputs (resp : Nat → Option (List RawAIContact)) : Nat → Nat → List (List TagAssignment)
  | _, 0 => []
  | k, m+1 => parseBatch (resp k) :: batchOutputs resp (k+1) m

/-- All tag names returned by one batch, in response order. -/
def tagsOfBatch (r : Option (List RawAIContact)) : List String :=
  concatAll ((parseBatch r).map (fun a => a.tags))

/-- The per-batch returned tag-name lists for m consecutive batches
starting at batch index k. -/
def batchTagLists (resp : Nat → Option (List RawAIContact)) : Nat → Nat → List (List String)
  | _, 0 => []
  | k, m+1 => tagsOfBatch (resp k) :: batchTagLists resp (k+1) m

/-- The requests the loop submits for a list of batches, threading the
growing vocabulary. -/
def requestsOf (resp : Nat → Option (List RawAIContact)) :
    List (List DeviceContact) → Nat → List String → List BatchRequest
  | [], _, _ => []
  | b :: bs, k, v =>
    BatchRequest.mk b v :: requestsOf resp bs (k+1) (addNewTags v (tagsOfBatch (resp k)))

theorem addNewTags_nil (v : List String) : addNewTags v [] = v := rfl

theorem addNewTags_append (v a b : List String) :
    addNewTags v (a ++ b) = addNewTags (addNewTags v a) b := by
  unfold addNewTags
  rw [List.foldl_append]

theorem foldl_addNewTags (l : List (List String)) (v : List String) :
    l.foldl addNewTags v = addNewTags v (concatAll l) := by
  induction l generalizing v with
  | nil => rfl
  | cons a l ih =>
    rw [List.foldl_cons, ih, concatAll, addNewTags_append]

theorem extractStep_assignments (resp : Nat → Option (List RawAIContact)) (k : Nat)
    (b : List DeviceContact) (st : ExtractState) :
    (extractStep resp k b st).assignments = st.assignments ++ parseBatch (resp k) := by
  cases h : resp k with
  | none => simp [extractStep, h, parseBatch]
  | some raws => simp [extractStep, h]

theorem extractStep_vocab (resp : Nat → Option (List RawAIContact)) (k : Nat)
    (b : List DeviceContact) (st : ExtractState) :
    (extractStep resp k b st).vocab = addNewTags st.vocab (tagsOfBatch (resp k)) := by
  cases h : resp k with
  | none => simp [extractStep, h, tagsOfBatch, parseBatch, addNewTags_nil, concatAll]
  | some raws =>
    simp only [extractStep, h]
    show (parseBatch (some raws)).foldl (fun v a => addNewTags v a.tags) st.vocab
      = addNewTags st.vocab (tagsOfBatch (some raws))
    rw [tagsOfBatch, ← foldl_addNewTags, List.foldl_map]

theorem extractStep_requests (resp : Nat → Option (List RawAIContact)) (k : Nat)
    (b : List DeviceContact) (st : ExtractState) :
    (extractStep resp k b st).requests = st.requests ++ [BatchRequest.mk b st.vocab] := by
  cases h : resp k with
  | none => simp [extractStep, h]
  | some raws => simp [extractStep, h]

theorem goChunks_assignments (resp : Nat → Option (List RawAIContact))
    (bs : List (List DeviceContact)) (k : Nat) (st : ExtractState) :
    (goChunks resp bs k st).assignments
      = st.assignments ++ concatAll (batchOutputs resp k bs.length) := by
  induction bs generalizing k st with
  | nil => simp [goChunks, batchOutputs, concatAll]
  | cons b bs ih =>
    show (goChunks resp bs (k+1) (extractStep resp k b st)).assignments
      = st.assignments ++ concatAll (batchOutputs resp k (bs.length + 1))
    rw [ih, extractStep_assignments]
    simp [batchOutputs, concatAll, List.append_assoc]

theorem goChunks_requests (resp : Nat → Option (List RawAIContact))
    (bs : List (List DeviceContact)) (k : Nat) (st : ExtractState) :
    (goChunks resp bs k st).requests = st.requests ++ requestsOf resp bs k st.vocab := by
  induction bs generalizing k st with
  | nil => simp [goChunks, requestsOf]
  | cons b bs ih =>
    show (goChunks resp bs (k+1) (extractStep resp k b st)).requests
      = st.requests ++ requestsOf resp (b :: bs) k st.vocab
    rw [ih, extractStep_requests, extractStep_vocab]
    simp [requestsOf, List.append_assoc]

theorem extractGo_eq_goChunks (contacts : List DeviceContact)
    (resp : Nat → Option (List RawAIContact)) (i k : Nat) (st : ExtractState) :
    extractGo contacts resp i k st
      = goChunks resp (chunksOf batchSize (contacts.drop i)) k st := by
  induction i, k, st using extractGo.induct contacts resp with
  | case1 i k st hlt ih =>
    rw [extractGo]
    simp only [hlt, if_true]
    rw [ih]
    cases hd : contacts.drop i with
    | nil =>
      exfalso
      have := congrArg List.length hd
      rw [List.length_drop] at this
      simp at this
      omega
    | cons a t =>
      have h2 : contacts.drop (i + batchSize) = t.drop (batchSize - 1) := by
        rw [← List.drop_drop, hd]
        show List.drop 35 (a :: t) = List.drop 34 t
        rfl
      have h1 : List.take batchSize (a :: t) = a :: List.take (batchSize - 1) t := rfl
      rw [h2, h1]
      simp only [chunksOf]
      rfl
  | case2 i k st hlt =>
    rw [extractGo]
    simp only [hlt, if_false]
    have hd : contacts.drop i = [] := List.drop_eq_nil_of_le (by omega)
    rw [hd]
    simp only [chunksOf, goChunks]

theorem extract_assignments (contacts : List DeviceContact) (v0 : List String)
    (resp : Nat → Option (List RawAIContact)) :
    (extractTagsFromAI contacts v0 resp).assignments
      = concatAll (batchOutputs resp 0 (chunksOf batchSize contacts).length) := by
  unfold extractTagsFromAI
  rw [extractGo_eq_goChunks, List.drop_zero, goChunks_assignments]
  rfl

theorem extract_requests (contacts : List DeviceContact) (v0 : List String)
    (resp : Nat → Option (List RawAIContact)) :
    (extractTagsFromAI contacts v0 resp).requests
      = requestsOf resp (chunksOf batchSize contacts) 0 v0 := by
  unfold extractTagsFromAI
  rw [extractGo_eq_goChunks, List.drop_zero, goChunks_requests]
  rfl

theorem concatAll_chunksOf {α : Type} (n : Nat) (l : List α) :
    concatAll (chunksOf n l) = l := by
  induction l using chunksOf.induct n with
  | case1 => simp [chunksOf, concatAll]
  | case2 a l ih =>
    simp only [chunksOf, concatAll, ih]
    rw [List.cons_append, List.take_append_drop]

theorem chunksOf_sizes {α : Type} (n : Nat) (hn : 0 < n) (l : List α) :
    ∀ b ∈ chunksOf n l, b ≠ [] ∧ b.length ≤ n := by
  induction l using chunksOf.induct n with
  | case1 => simp [chunksOf]
  | case2 a l ih =>
    intro b hb
    rw [chunksOf] at hb
    rcases List.mem_cons.mp hb with rfl | hb'
    · constructor
      · simp
      · have := List.length_take_le (n-1) l
        simp only [List.length_cons]
        omega
    · exact ih b hb'

theorem chunksOf_eq_nil_iff {α : Type} (n : Nat) (l : List α) :
    chunksOf n l = [] ↔ l = [] := by
  cases l with
  | nil => simp [chunksOf]
  | cons a t => simp [chunksOf]

theorem chunksOf_full_sizes {α : Type} (n : Nat) (hn : 0 < n) (l : List α) :
    ∀ m, m + 1 < (chunksOf n l).length → ((chunksOf n l).getD m []).length = n := by
  induction l using chunksOf.induct n with
  | case1 => simp [chunksOf]
  | case2 a l ih =>
    intro m hm
    rw [chunksOf] at hm ⊢
    cases m with
    | zero =>
      simp only [List.getD_cons_zero]
      have hne : chunksOf n (l.drop (n-1)) ≠ [] := by
        intro h0
        rw [h0] at hm
        simp at hm
      have hld : l.drop (n-1) ≠ [] := by
        intro h0
        exact hne ((chunksOf_eq_nil_iff n (l.drop (n-1))).mpr h0)
      have hlen : (n-1) < l.length := by
        by_contra hc
        exact hld (List.drop_eq_nil_of_le (by omega))
      simp only [List.length_cons, List.length_take]
      omega
    | succ m' =>
      simp only [List.getD_cons_succ]
      apply ih
      simp only [List.length_cons] at hm
      omega

theorem batchOutputs_length (resp : Nat → Option (List RawAIContact)) (k n : Nat) :
    (batchOutputs resp k n).length = n := by
  induction n generalizing k with
  | zero => rfl
  | succ n ih => simp [batchOutputs, ih]

theorem batchOutputs_getD (resp : Nat → Option (List RawAIContact)) (n : Nat) :
    ∀ k m, m < n → (batchOutputs resp k n).getD m [] = parseBatch (resp (k + m)) := by
  induction n with
  | zero => intro k m hm; omega
  | succ n ih =>
    intro k m hm
    cases m with
    | zero => simp [batchOutputs]
    | succ m' =>
      show (batchOutputs resp (k+1) n).getD m' [] = parseBatch (resp (k + (m'+1)))
      rw [ih (k+1) m' (by omega)]
      have : k + 1 + m' = k + (m' + 1) := by omega
      rw [this]

theorem requestsOf_length (resp : Nat → Option (List RawAIContact))
    (bs : List (List DeviceContact)) : ∀ k v, (requestsOf resp bs k v).length = bs.length := by
  induction bs with
  | nil => intro k v; rfl
  | cons b bs ih => intro k v; simp [requestsOf, ih]

theorem requestsOf_map_contacts (resp : Nat → Option (List RawAIContact))
    (bs : List (List DeviceContact)) :
    ∀ k v, (requestsOf resp bs k v).map (fun r => r.contacts) = bs := by
  induction bs with
  | nil => intro k v; rfl
  | cons b bs ih => intro k v; simp [requestsOf, ih]

theorem requestsOf_getD (resp : Nat → Option (List RawAIContact))
    (bs : List (List DeviceContact)) :
    ∀ k v m, m < bs.length →
      (requestsOf resp bs k v).getD m (BatchRequest.mk [] [])
        = BatchRequest.mk (bs.getD m [])
            (addNewTags v (concatAll (batchTagLists resp k m))) := by
  induction bs with
  | nil => intro k v m hm; simp at hm
  | cons b bs ih =>
    intro k v m hm
    cases m with
    | zero => simp [requestsOf, batchTagLists, concatAll, addNewTags_nil]
    | succ m' =>
      show (requestsOf resp bs (k+1) (addNewTags v (tagsOfBatch (resp k)))).getD m' _
        = BatchRequest.mk (bs.getD m' []) _
      rw [ih (k+1) _ m' (by simpa using hm)]
      have hbt : concatAll (batchTagLists resp k (m'+1))
          = tagsOfBatch (resp k) ++ concatAll (batchTagLists resp (k+1) m') := by
        simp [batchTagLists, concatAll]
      rw [hbt, addNewTags_append]

theorem mem_addNewTags_left (l : List String) :
    ∀ v t, t ∈ v → t ∈ addNewTags v l := by
  induction l with
  | nil => intro v t h; exact h
  | cons a l ih =>
    intro v t h
    show t ∈ addNewTags (if a ∈ v then v else v ++ [a]) l
    apply ih
    by_cases ha : a ∈ v
    · simp [ha, h]
    · simp [ha]
      exact Or.inl h

theorem mem_addNewTags_right (l : List String) :
    ∀ v t, t ∈ l → t ∈ addNewTags v l := by
  induction l with
  | nil => intro v t h; cases h
  | cons a l ih =>
    intro v t h
    show t ∈ addNewTags (if a ∈ v then v else v ++ [a]) l
    rcases List.mem_cons.mp h with rfl | h'
    · apply mem_addNewTags_left
      by_cases ha : t ∈ v
      · simp [ha]
      · simp [ha]
    · exact ih _ t h'

theorem mem_concat_batchTagLists (resp : Nat → Option (List RawAIContact)) (m : Nat) :
    ∀ k j t, j < m → t ∈ tagsOfBatch (resp (k + j)) →
      t ∈ concatAll (batchTagLists resp k m) := by
  induction m with
  | zero => intro k j t hj ht; omega
  | succ m ih =>
    intro k j t hj ht
    show t ∈ tagsOfBatch (resp k) ++ concatAll (batchTagLists resp (k+1) m)
    cases j with
    | zero =>
      exact List.mem_append_left _ (by simpa using ht)
    | succ j' =>
      apply List.mem_append_right
      apply ih (k+1) j' t (by omega)
      have : k + 1 + j' = k + (j' + 1) := by omega
      rw [this]
      exact ht

-- ===== Tag and link invariants of the writer =====

theorem upsertTag_empty (db : DB) (t : String) (h : jsTrim t = "") :
    upsertTag db t = (none, db) := by
  simp [upsertTag, h]

theorem upsertTag_found (db : DB) (t : String) (row : TagRow) (h : jsTrim t ≠ "")
    (hf : db.tags.find? (fun r => r.name == jsTrim t) = some row) :
    upsertTag db t = (some row.id, db) := by
  simp [upsertTag, h, hf]

theorem upsertTag_new (db : DB) (t : String) (h : jsTrim t ≠ "")
    (hf : db.tags.find? (fun r => r.name == jsTrim t) = none) :
    upsertTag db t
      = (some db.nextTagId,
         { db with tags := db.tags ++ [⟨db.nextTagId, jsTrim t⟩],
                   nextTagId := db.nextTagId + 1 }) := by
  simp [upsertTag, h, hf]

/-- Invariants SQLite guarantees for the tags and link tables: tag names
are UNIQUE, (contact_id, tag_id) is a primary key, no tag row has the
empty name, and every link row references an existing tag row. -/
def WriterInv (db : DB) : Prop :=
  (db.tags.map (fun r => r.name)).Nodup ∧
  db.links.Nodup ∧
  (∀ r ∈ db.tags, r.name ≠ "") ∧
  (∀ pr ∈ db.links, ∃ r ∈ db.tags, r.id = pr.2)

theorem emptyDB_writerInv : WriterInv emptyDB := by
  refine ⟨?_, ?_, ?_, ?_⟩ <;> simp [emptyDB]

theorem upsertTag_inv (db : DB) (t : String) (h : WriterInv db) :
    WriterInv (upsertTag db t).2 := by
  by_cases he : jsTrim t = ""
  · rw [upsertTag_empty db t he]; exact h
  · cases hf : db.tags.find? (fun r => r.name == jsTrim t) with
    | some row => rw [upsertTag_found db t row he hf]; exact h
    | none =>
      rw [upsertTag_new db t he hf]
      obtain ⟨h1, h2, h3, h4⟩ := h
      refine ⟨?_, h2, ?_, ?_⟩
      · show ((db.tags ++ [(⟨db.nextTagId, jsTrim t⟩ : TagRow)]).map (fun r => r.name)).Nodup
        rw [List.map_append, List.nodup_append]
        refine ⟨h1, by simp, ?_⟩
        intro x hx hx2
        rcases List.mem_map.mp hx with ⟨r, hr, hrn⟩
        have hxe : x = jsTrim t := by simpa using hx2
        have hne := List.find?_eq_none.mp hf r hr
        apply hne
        simp [hrn, hxe]
      · intro r hr
        rcases List.mem_append.mp hr with hr' | hr'
        · exact h3 r hr'
        · have hre : r = ⟨db.nextTagId, jsTrim t⟩ := by simpa using hr'
          rw [hre]
          exact he
      · intro pr hpr
        obtain ⟨r, hr, hrid⟩ := h4 pr hpr
        exact ⟨r, List.mem_append_left _ hr, hrid⟩

theorem upsertTag_some_ref (db : DB) (t : String) (tv : Nat)
    (h : (upsertTag db t).1 = some tv) :
    ∃ r ∈ (upsertTag db t).2.tags, r.id = tv := by
  by_cases he : jsTrim t = ""
  · rw [upsertTag_empty db t he] at h; cases h
  · cases hf : db.tags.find? (fun r => r.name == jsTrim t) with
    | some row =>
      rw [upsertTag_found db t row he hf] at h ⊢
      have : tv = row.id := by simpa using h.symm
      exact ⟨row, List.mem_of_find?_eq_some hf, this.symm⟩
    | none =>
      rw [upsertTag_new db t he hf] at h ⊢
      have : tv = db.nextTagId := by simpa using h.symm
      exact ⟨⟨db.nextTagId, jsTrim t⟩, List.mem_append_right _ (by simp), this.symm⟩

theorem link_inv (db : DB) (cid : Nat) (tidOpt : Option Nat) (h : WriterInv db)
    (href : ∀ tv, tidOpt = some tv → ∃ r ∈ db.tags, r.id = tv) :
    WriterInv (linkContactToTag db cid tidOpt) := by
  cases tidOpt with
  | none => exact h
  | some tv =>
    simp only [linkContactToTag]
    split
    · exact h
    · split
      · exact h
      · rename_i hmem
        obtain ⟨h1, h2, h3, h4⟩ := h
        refine ⟨h1, ?_, h3, ?_⟩
        · show (db.links ++ [(cid, tv)]).Nodup
          rw [List.nodup_append]
          refine ⟨h2, by simp, ?_⟩
          intro x hx hx2
          have hxe : x = (cid, tv) := by simpa using hx2
          rw [hxe] at hx
          exact hmem hx
        · intro pr hpr
          rcases List.mem_append.mp hpr with hpr' | hpr'
          · exact h4 pr hpr'
          · have hpe : pr = (cid, tv) := by simpa using hpr'
            rw [hpe]
            exact href tv rfl

theorem linkTags_inv (db : DB) (cid : Nat) (tags : List String) (h : WriterInv db) :
    WriterInv (linkTags db cid tags) := by
  unfold linkTags
  refine foldl_preserve WriterInv _ ?_ tags db h
  intro d a hd
  dsimp only
  exact link_inv (upsertTag d a).2 cid (upsertTag d a).1 (upsertTag_inv d a hd)
    (fun tv htv => upsertTag_some_ref d a tv htv)

theorem processItem_inv (db : DB) (it : TagAssignment) (h : WriterInv db) :
    WriterInv (processItem db it) := by
  unfold processItem
  cases getContactDbId db it.true_id with
  | none => exact h
  | some cid =>
    by_cases hc : (cid == 0) = true
    · simp only [hc, if_true]; exact h
    · simp only [hc, if_false]; exact linkTags_inv db cid it.tags h

theorem upsertContact_inv (db : DB) (c : DeviceContact) (h : WriterInv db) :
    WriterInv (upsertContact db c) := by
  obtain ⟨h1, h2, h3, h4⟩ := h
  refine ⟨?_, ?_, ?_, ?_⟩
  · show ((upsertContact db c).tags.map (fun r => r.name)).Nodup
    rw [upsertContact_tags]; exact h1
  · show (upsertContact db c).links.Nodup
    rw [upsertContact_links]; exact h2
  · show ∀ r ∈ (upsertContact db c).tags, r.name ≠ ""
    rw [upsertContact_tags]; exact h3
  · show ∀ pr ∈ (upsertContact db c).links, ∃ r ∈ (upsertContact db c).tags, r.id = pr.2
    rw [upsertContact_links, upsertContact_tags]; exact h4

theorem persistRun_inv (db : DB) (ne : List DeviceContact) (ex : List TagAssignment)
    (h : WriterInv db) : WriterInv (persistRun db ne ex) := by
  unfold persistRun
  exact foldl_preserve WriterInv processItem (fun d a hd => processItem_inv d a hd) ex _
    (foldl_preserve WriterInv upsertContact (fun d a hd => upsertContact_inv d a hd) ne db h)

-- ===== Monotonicity: rows are never removed =====

theorem link_links_mono (db : DB) (cid : Nat) (tidOpt : Option Nat) (pr : Nat × Nat)
    (h : pr ∈ db.links) : pr ∈ (linkContactToTag db cid tidOpt).links := by
  cases tidOpt with
  | none => exact h
  | some tv =>
    simp only [linkContactToTag]
    split
    · exact h
    · split
      · exact h
      · exact List.mem_append_left _ h

theorem upsertTag_tags_mono (db : DB) (t : String) (r : TagRow) (hr : r ∈ db.tags) :
    r ∈ (upsertTag db t).2.tags := by
  by_cases he : jsTrim t = ""
  · rw [upsertTag_empty db t he]; exact hr
  · cases hf : db.tags.find? (fun x => x.name == jsTrim t) with
    | some row => rw [upsertTag_found db t row he hf]; exact hr
    | none => rw [upsertTag_new db t he hf]; exact List.mem_append_left _ hr

theorem linkTags_links_mono (db : DB) (cid : Nat) (tags : List String) (pr : Nat × Nat)
    (h : pr ∈ db.links) : pr ∈ (linkTags db cid tags).links := by
  unfold linkTags
  refine foldl_preserve (fun d => pr ∈ d.links) _ ?_ tags db h
  intro d a hd
  dsimp only
  apply link_links_mono
  rw [upsertTag_links]
  exact hd

theorem linkTags_tags_mono (db : DB) (cid : Nat) (tags : List String) (r : TagRow)
    (h : r ∈ db.tags) : r ∈ (linkTags db cid tags).tags := by
  unfold linkTags
  refine foldl_preserve (fun d => r ∈ d.tags) _ ?_ tags db h
  intro d a hd
  dsimp only
  rw [linkContactToTag_tags]
  exact upsertTag_tags_mono d a r hd

theorem processItem_links_mono (db : DB) (it : TagAssignment) (pr : Nat × Nat)
    (h : pr ∈ db.links) : pr ∈ (processItem db it).links := by
  unfold processItem
  cases getContactDbId db it.true_id with
  | none => exact h
  | some cid =>
    by_cases hc : (cid == 0) = true
    · simp only [hc, if_true]; exact h
    · simp only [hc, if_false]; exact linkTags_links_mono db cid it.tags pr h

theorem processItem_tags_mono (db : DB) (it : TagAssignment) (r : TagRow)
    (h : r ∈ db.tags) : r ∈ (processItem db it).tags := by
  unfold processItem
  cases getContactDbId db it.true_id with
  | none => exact h
  | some cid =>
    by_cases hc : (cid == 0) = true
    · simp only [hc, if_true]; exact h
    · simp only [hc, if_false]; exact linkTags_tags_mono db cid it.tags r h

theorem persistRun_links_mono (db : DB) (ne : List DeviceContact) (ex : List TagAssignment)
    (pr : Nat × Nat) (h : pr ∈ db.links) : pr ∈ (persistRun db ne ex).links := by
  unfold persistRun
  refine foldl_preserve (fun d => pr ∈ d.links) processItem
    (fun d a hd => processItem_links_mono d a pr hd) ex _ ?_
  refine foldl_preserve (fun d => pr ∈ d.links) upsertContact ?_ ne db h
  intro d a hd
  rw [upsertContact_links]
  exact hd

theorem persistRun_tags_mono (db : DB) (ne : List DeviceContact) (ex : List TagAssignment)
    (r : TagRow) (h : r ∈ db.tags) : r ∈ (persistRun db ne ex).tags := by
  unfold persistRun
  refine foldl_preserve (fun d => r ∈ d.tags) processItem
    (fun d a hd => processItem_tags_mono d a r hd) ex _ ?_
  refine foldl_preserve (fun d => r ∈ d.tags) upsertContact ?_ ne db h
  intro d a hd
  rw [upsertContact_tags]
  exact hd

-- ===== Transaction lemmas =====

theorem runOpsAborting_cases (ops : List WriteOp) :
    ∀ (db : DB) (failAt : Option Nat),
      runOpsAborting db ops failAt = none ∨
      runOpsAborting db ops failAt = some (ops.foldl applyOp db) := by
  induction ops with
  | nil => intro db failAt; right; rfl
  | cons op rest ih =>
    intro db failAt
    cases failAt with
    | none =>
      rcases ih (applyOp db op) none with h | h
      · left; exact h
      · right; exact h
    | some j =>
      cases j with
      | zero => left; rfl
      | succ j' =>
        rcases ih (applyOp db op) (some j') with h | h
        · left; exact h
        · right; exact h

theorem persistRun_eq_runOps (db : DB) (ne : List DeviceContact) (ex : List TagAssignment) :
    persistRun db ne ex = (writeOps ne ex).foldl applyOp db := by
  unfold persistRun writeOps
  rw [List.foldl_append, List.foldl_map, List.foldl_map]
  rfl

-- ===== Classification of a snapshot (spec view of the change detector) =====

/-- The three classes of the spec's Change Detector contract. -/
inductive Classification where
  | isNew : Classification
  | edited : Classification
  | unchanged : Classification
deriving DecidableEq

/-- The classification implicit in checkIfContactChanged's branches: no
stored row with this true_id means new; a row that differs in a tracked
field means edited; otherwise unchanged. -/
def classify (db : DB) (c : DeviceContact) (tid : String) : Classification :=
  match findContactByTrueId db tid with
  | none => Classification.isNew
  | some row =>
    if contactDiffers row c then Classification.edited else Classification.unchanged

theorem checkChanged_of_find_none (db : DB) (c : DeviceContact) (tid : String)
    (hcid : c.id = some tid) (hf : findContactByTrueId db tid = none) :
    checkIfContactChanged db c = true := by
  simp [checkIfContactChanged, hcid, hf]

theorem checkChanged_of_find_some (db : DB) (c : DeviceContact) (tid : String)
    (row : ContactRow) (hcid : c.id = some tid)
    (hf : findContactByTrueId db tid = some row) :
    checkIfContactChanged db c = contactDiffers row c := by
  simp [checkIfContactChanged, hcid, hf]

-- ===== After one import run, nothing is new or edited =====

theorem run_then_unchanged (db : DB) (data : List DeviceContact)
    (resp : Nat → Option (List RawAIContact)) (hwf : ContactsWF db)
    (hnd : (data.filterMap (fun c => c.id)).Nodup) :
    newOrEditedOf (importRun true data resp db) data = [] := by
  by_cases hd : data.isEmpty
  · have hdata : data = [] := by simpa using hd
    subst hdata
    rfl
  · by_cases hne : (newOrEditedOf db data).isEmpty
    · have hdb1 : importRun true data resp db = db := by
        simp [importRun, importRunFull, hd, hne]
      rw [hdb1]
      simpa using hne
    · have hdb1 : importRun true data resp db
          = persistRun db (newOrEditedOf db data)
              (extractTagsFromAI (newOrEditedOf db data) (getAllTags db) resp).assignments := by
        simp [importRun, importRunFull, hd, hne]
      rw [hdb1]
      apply List.filter_eq_nil_iff.mpr
      intro c hc
      cases hcid : c.id with
      | none => simp [hcid]
      | some tid =>
        simp only [hcid, Option.isSome_some, Bool.true_and]
        have hcontacts :
            (persistRun db (newOrEditedOf db data)
              (extractTagsFromAI (newOrEditedOf db data) (getAllTags db) resp).assignments).contacts
            = ((newOrEditedOf db data).foldl upsertContact db).contacts :=
          persistRun_contacts db _ _
        have hfind : ∀ s,
            findContactByTrueId (persistRun db (newOrEditedOf db data)
              (extractTagsFromAI (newOrEditedOf db data) (getAllTags db) resp).assignments) s
            = findContactByTrueId ((newOrEditedOf db data).foldl upsertContact db) s := by
          intro s
          unfold findContactByTrueId
          rw [hcontacts]
        by_cases hmem : c ∈ newOrEditedOf db data
        · have hndne : ((newOrEditedOf db data).filterMap (fun x => x.id)).Nodup :=
            List.Nodup.sublist (List.Sublist.filterMap _ (List.filter_sublist data)) hnd
          obtain ⟨n, hn⟩ :=
            foldl_upsert_find_self (newOrEditedOf db data) db c tid hwf hmem hcid hndne
          have hck := checkChanged_of_find_some _ c tid (deviceRow n tid c) hcid
            ((hfind tid).trans hn)
          rw [hck, contactDiffers_deviceRow]
          simp
        · have hchf : checkIfContactChanged db c = false := by
            by_contra habs
            have h1 : checkIfContactChanged db c = true := by
              cases h2 : checkIfContactChanged db c
              · exact absurd h2 habs
              · rfl
            exact hmem (List.mem_filter.mpr ⟨hc, by simp [hcid, h1]⟩)
          have hno : ∀ c' ∈ newOrEditedOf db data, c'.id ≠ some tid := by
            intro c' hc' habs
            have hc'data : c' ∈ data := List.mem_of_mem_filter hc'
            have hcc : c = c' := eq_of_filterMap_id_nodup data hnd c c' hc hc'data tid hcid habs
            rw [← hcc] at hc'
            exact hmem hc'
          have hfold := foldl_upsert_find_other (newOrEditedOf db data) db tid hwf hno
          cases hfdb : findContactByTrueId db tid with
          | none =>
            have := checkChanged_of_find_none db c tid hcid hfdb
            rw [this] at hchf
            cases hchf
          | some row =>
            have hck0 := checkChanged_of_find_some db c tid row hcid hfdb
            have hck := checkChanged_of_find_some _ c tid row hcid
              ((hfind tid).trans (hfold.trans hfdb))
            rw [hck, ← hck0, hchf]
            simp

theorem upsert_find_self_found (db : DB) (c : DeviceContact) (tid : String) (row : ContactRow)
    (hwf : ContactsWF db) (hcid : c.id = some tid)
    (hf : findContactByTrueId db tid = some row) :
    findContactByTrueId (upsertContact db c) tid = some (deviceRow row.id tid c) := by
  obtain ⟨hids, htids, hbound⟩ := hwf
  rw [upsertContact_found db c tid row hcid hf]
  show ((db.contacts.map (fun r => if r.id == row.id then deviceRow row.id tid c else r)).find?
    (fun r => r.true_id == tid)) = some (deviceRow row.id tid c)
  have hrowmem : row ∈ db.contacts := findContact_mem db tid row hf
  have hrowtid : row.true_id = tid := findContact_true_id db tid row hf
  have hmain := find?_map_replace
    (fun r => if r.id == row.id then deviceRow row.id tid c else r)
    (fun r => r.true_id == tid) row db.contacts hrowmem ?_ ?_
  · rw [hmain]
    simp
  · intro r hr hrne
    constructor
    · have hne2 : ¬ (r.id == row.id) = true := by
        intro hc2
        exact hrne (eq_of_map_nodup _ db.contacts hids r row hr hrowmem (beq_iff_eq.mp hc2))
      simp [hne2]
    · have hne2 : r.true_id ≠ tid := by
        intro he
        exact hrne (eq_of_map_nodup _ db.contacts htids r row hr hrowmem (by rw [he, hrowtid]))
      simp [hne2]
  · simp [deviceRow]

-- ===== Claim theorems =====

/-- C1: a snapshot presented to the change detector is classified new iff
no stored contacts row has its true_id; edited iff such a row exists and
at least one of name, company, jobTitle (compared as trimmed strings,
absent device fields as the empty string) or the image-availability flag
(absent as false) differs; unchanged otherwise; and the list importContacts
hands to the synthesizer and writer is exactly the subset classified new
or edited, in source order. -/
theorem changeDetector_classifies (db : DB) (data : List DeviceContact)
    (hwf : ContactsWF db) :
    (∀ (c : DeviceContact) (tid : String), c.id = some tid →
      ((classify db c tid = Classification.isNew ↔ ¬ ∃ r ∈ db.contacts, r.true_id = tid)
       ∧ (classify db c tid = Classification.edited ↔
            ∃ r ∈ db.contacts, r.true_id = tid ∧ contactDiffers r c = true)
       ∧ (classify db c tid = Classification.unchanged ↔
            ∃ r ∈ db.contacts, r.true_id = tid ∧ contactDiffers r c = false)
       ∧ (checkIfContactChanged db c = true ↔ classify db c tid ≠ Classification.unchanged)))
    ∧ newOrEditedOf db data
        = data.filter (fun c =>
            match c.id with
            | none => false
            | some tid => decide (classify db c tid ≠ Classification.unchanged)) := by
  constructor
  · intro c tid hcid
    cases hf : findContactByTrueId db tid with
    | none =>
      have hclass : classify db c tid = Classification.isNew := by
        simp [classify, hf]
      have hnone := findContact_none db tid hf
      refine ⟨?_, ?_, ?_, ?_⟩
      · rw [hclass]
        constructor
        · intro _
          rintro ⟨r, hr, heq⟩
          exact hnone r hr heq
        · intro _; rfl
      · rw [hclass]
        constructor
        · intro h; exact absurd h (by decide)
        · rintro ⟨r, hr, heq, _⟩
          exact absurd heq (hnone r hr)
      · rw [hclass]
        constructor
        · intro h; exact absurd h (by decide)
        · rintro ⟨r, hr, heq, _⟩
          exact absurd heq (hnone r hr)
      · rw [checkChanged_of_find_none db c tid hcid hf, hclass]
        constructor
        · intro _; decide
        · intro _; rfl
    | some row =>
      have hrmem := findContact_mem db tid row hf
      have hrtid := findContact_true_id db tid row hf
      have huniq : ∀ r ∈ db.contacts, r.true_id = tid → r = row := by
        intro r hr heq
        exact eq_of_map_nodup _ db.contacts hwf.2.1 r row hr hrmem (by rw [heq, hrtid])
      have hck := checkChanged_of_find_some db c tid row hcid hf
      cases hdiff : contactDiffers row c with
      | true =>
        have hclass : classify db c tid = Classification.edited := by
          simp [classify, hf, hdiff]
        refine ⟨?_, ?_, ?_, ?_⟩
        · rw [hclass]
          constructor
          · intro h; exact absurd h (by decide)
          · intro h; exact absurd ⟨row, hrmem, hrtid⟩ h
        · rw [hclass]
          constructor
          · intro _; exact ⟨row, hrmem, hrtid, hdiff⟩
          · intro _; rfl
        · rw [hclass]
          constructor
          · intro h; exact absurd h (by decide)
          · rintro ⟨r, hr, heq, hdf⟩
            have hre := huniq r hr heq
            rw [hre, hdiff] at hdf
            cases hdf
        · rw [hck, hdiff, hclass]
          constructor
          · intro _; decide
          · intro _; rfl
      | false =>
        have hclass : classify db c tid = Classification.unchanged := by
          simp [classify, hf, hdiff]
        refine ⟨?_, ?_, ?_, ?_⟩
        · rw [hclass]
          constructor
          · intro h; exact absurd h (by decide)
          · intro h; exact absurd ⟨row, hrmem, hrtid⟩ h
        · rw [hclass]
          constructor
          · intro h; exact absurd h (by decide)
          · rintro ⟨r, hr, heq, hdf⟩
            have hre := huniq r hr heq
            rw [hre, hdiff] at hdf
            cases hdf
        · rw [hclass]
          constructor
          · intro _; exact ⟨row, hrmem, hrtid, hdiff⟩
          · intro _; rfl
        · rw [hck, hdiff, hclass]
          constructor
          · intro h; cases h
          · intro h; exact absurd rfl h
  · unfold newOrEditedOf
    apply List.filter_congr
    intro c hc
    cases hcid : c.id with
    | none => simp [hcid]
    | some tid =>
      simp only [hcid, Option.isSome_some, Bool.true_and]
      cases hf : findContactByTrueId db tid with
      | none =>
        rw [checkChanged_of_find_none db c tid hcid hf]
        simp [classify, hf]
      | some row =>
        rw [checkChanged_of_find_some db c tid row hcid hf]
        cases hdiff : contactDiffers row c <;> simp [classify, hf, hdiff]

/-- C2: the writer's statements — all contact upserts, then all tag
upserts and link insertions — run inside one withTransactionSync unit: no
matter where the body fails, the store is either exactly as before the
run or holds the complete run; the committed state is exactly the fold of
all the run's write operations. -/
theorem writer_atomic (db : DB) (ne : List DeviceContact) (ex : List TagAssignment)
    (failAt : Option Nat) :
    (withTransactionSync db (writeOps ne ex) failAt = db ∨
     withTransactionSync db (writeOps ne ex) failAt = persistRun db ne ex)
    ∧ persistRun db ne ex = (writeOps ne ex).foldl applyOp db := by
  constructor
  · unfold withTransactionSync
    rcases runOpsAborting_cases (writeOps ne ex) db failAt with h | h
    · left; rw [h]; rfl
    · right; rw [h, persistRun_eq_runOps]; rfl
  · exact persistRun_eq_runOps db ne ex

/-- C3: if the response for batch k is absent or malformed, batch k
contributes no assignments while every other batch's parsed output still
appears, in batch order; and inside a parsed batch a contact whose tags
field is not a list gets the empty tag list. -/
theorem batch_failure_isolated (contacts : List DeviceContact) (v0 : List String)
    (resp : Nat → Option (List RawAIContact)) (k : Nat) :
    ((extractTagsFromAI contacts v0 (fun j => if j = k then none else resp j)).assignments
        = concatAll (batchOutputs (fun j => if j = k then none else resp j) 0
            (chunksOf batchSize contacts).length))
    ∧ (∀ m, m < (chunksOf batchSize contacts).length →
        (batchOutputs (fun j => if j = k then none else resp j) 0
            (chunksOf batchSize contacts).length).getD m []
          = if m = k then [] else parseBatch (resp m))
    ∧ (∀ raws : List RawAIContact, parseBatch (some raws)
        = raws.map (fun r => TagAssignment.mk r.true_id (r.tagsField.getD []))) := by
  refine ⟨extract_assignments contacts v0 _, ?_, fun raws => rfl⟩
  intro m hm
  rw [batchOutputs_getD _ _ 0 m hm]
  simp only [Nat.zero_add]
  by_cases hmk : m = k
  · simp [hmk, parseBatch]
  · simp [hmk]

/-- C4: the vocabulary submitted with batch m equals the run's starting
vocabulary united with every distinct tag name returned by the
successfully parsed batches before m, appended in first-seen order; in
particular every tag of an earlier batch is in a later batch's
vocabulary. -/
theorem vocabulary_growth (contacts : List DeviceContact) (v0 : List String)
    (resp : Nat → Option (List RawAIContact)) :
    (∀ m, m < (extractTagsFromAI contacts v0 resp).requests.length →
      ((extractTagsFromAI contacts v0 resp).requests.getD m (BatchRequest.mk [] [])).existing_tags
        = addNewTags v0 (concatAll (batchTagLists resp 0 m)))
    ∧ (∀ m j, m < (extractTagsFromAI contacts v0 resp).requests.length → j < m →
        ∀ t ∈ tagsOfBatch (resp j),
          t ∈ ((extractTagsFromAI contacts v0 resp).requests.getD m
                (BatchRequest.mk [] [])).existing_tags) := by
  have hreq := extract_requests contacts v0 resp
  have hlen : (extractTagsFromAI contacts v0 resp).requests.length
      = (chunksOf batchSize contacts).length := by
    rw [hreq, requestsOf_length]
  have hvocab : ∀ m, m < (extractTagsFromAI contacts v0 resp).requests.length →
      ((extractTagsFromAI contacts v0 resp).requests.getD m (BatchRequest.mk [] [])).existing_tags
        = addNewTags v0 (concatAll (batchTagLists resp 0 m)) := by
    intro m hm
    rw [hreq, requestsOf_getD resp _ 0 v0 m (by rw [← hlen]; exact hm)]
  constructor
  · exact hvocab
  · intro m j hm hj t ht
    rw [hvocab m hm]
    apply mem_addNewTags_right
    apply mem_concat_batchTagLists resp m 0 j t hj
    simpa using ht

/-- C5: the changed subset is partitioned into consecutive batches of 35
(the last possibly smaller), the batches are submitted sequentially in
list order, and the synthesizer's output is the concatenation, in batch
order, of the successfully parsed per-batch assignments. -/
theorem synthesizer_batching (contacts : List DeviceContact) (v0 : List String)
    (resp : Nat → Option (List RawAIContact)) :
    ((extractTagsFromAI contacts v0 resp).requests.map (fun r => r.contacts)
        = chunksOf batchSize contacts)
    ∧ concatAll (chunksOf batchSize contacts) = contacts
    ∧ (∀ b ∈ chunksOf batchSize contacts, b ≠ [] ∧ b.length ≤ batchSize)
    ∧ (∀ m, m + 1 < (chunksOf batchSize contacts).length →
        ((chunksOf batchSize contacts).getD m []).length = batchSize)
    ∧ (extractTagsFromAI contacts v0 resp).assignments
        = concatAll (batchOutputs resp 0 (chunksOf batchSize contacts).length) := by
  refine ⟨?_, concatAll_chunksOf batchSize contacts,
    chunksOf_sizes batchSize (by decide) contacts,
    chunksOf_full_sizes batchSize (by decide) contacts,
    extract_assignments contacts v0 resp⟩
  rw [extract_requests, requestsOf_map_contacts]

/-- C6: a produced tag name that already has a tag row does not create a
second row with that name — upsertTag reuses the existing row's id and
leaves the store untouched — and after any writer run tag names are still
unique and no duplicate (contact, tag) link row exists, even when the
service repeats a tag. -/
theorem tag_dedup (db : DB) (ne : List DeviceContact) (ex : List TagAssignment)
    (hinv : WriterInv db) :
    (∀ t row, row ∈ db.tags → row.name = jsTrim t →
        upsertTag db t = (some row.id, db))
    ∧ ((persistRun db ne ex).tags.map (fun r => r.name)).Nodup
    ∧ (persistRun db ne ex).links.Nodup := by
  refine ⟨?_, (persistRun_inv db ne ex hinv).1, (persistRun_inv db ne ex hinv).2.1⟩
  intro t row hrow hname
  have hne : jsTrim t ≠ "" := by
    intro h0
    exact (hinv.2.2.1 row hrow) (hname.trans h0)
  have hfind : db.tags.find? (fun r => r.name == jsTrim t) = some row :=
    find?_eq_of_mem_of_nodup (fun r => r.name) db.tags hinv.1 row hrow (jsTrim t) hname
  exact upsertTag_found db t row hne hfind

/-- C7: upsertContact is keyed by true_id: with no matching row it
appends a fresh row carrying the next autoincrement id and the snapshot's
trimmed values; with a matching row the lookup afterwards yields the
snapshot's values under the matched row's unchanged internal id, every
other row survives, and no row is added. -/
theorem upsert_keyed_by_true_id (db : DB) (c : DeviceContact) (tid : String)
    (hcid : c.id = some tid) (hwf : ContactsWF db) :
    ((∀ r ∈ db.contacts, r.true_id ≠ tid) →
        upsertContact db c
          = { db with contacts := db.contacts ++ [deviceRow db.nextContactId tid c],
                      nextContactId := db.nextContactId + 1 })
    ∧ (∀ row ∈ db.contacts, row.true_id = tid →
        findContactByTrueId (upsertContact db c) tid = some (deviceRow row.id tid c)
        ∧ (∀ r ∈ db.contacts, r.true_id ≠ tid → r ∈ (upsertContact db c).contacts)
        ∧ (upsertContact db c).contacts.length = db.contacts.length
        ∧ (upsertContact db c).nextContactId = db.nextContactId) := by
  constructor
  · intro hno
    have hf : findContactByTrueId db tid = none := by
      unfold findContactByTrueId
      rw [List.find?_eq_none]
      intro r hr
      simp [hno r hr]
    exact upsertContact_new db c tid hcid hf
  · intro row hrowmem hrowtid
    have hf : findContactByTrueId db tid = some row :=
      findContact_eq_of_mem db tid row hwf hrowmem hrowtid
    have heq := upsertContact_found db c tid row hcid hf
    refine ⟨upsert_find_self_found db c tid row hwf hcid hf, ?_, ?_, ?_⟩
    · intro r hr hrne
      rw [heq]
      show r ∈ db.contacts.map (fun x => if x.id == row.id then deviceRow row.id tid c else x)
      have hfix : (if r.id == row.id then deviceRow row.id tid c else r) = r := by
        have hne2 : ¬ (r.id == row.id) = true := by
          intro h2
          have hre := eq_of_map_nodup _ db.contacts hwf.1 r row hr hrowmem (beq_iff_eq.mp h2)
          rw [hre] at hrne
          exact hrne hrowtid
        simp [hne2]
      rw [← hfix]
      exact List.mem_map_of_mem _ hr
    · rw [heq]
      show (db.contacts.map _).length = db.contacts.length
      rw [List.length_map]
    · rw [heq]

/-- C8: a second importContacts run over the same device list, against
the store the first run produced, changes nothing: it returns the store
unchanged and makes zero tagging-service requests. -/
theorem import_idempotent (db : DB) (data : List DeviceContact)
    (resp resp' : Nat → Option (List RawAIContact)) (hwf : ContactsWF db)
    (hnd : (data.filterMap (fun c => c.id)).Nodup) :
    importRunFull true data resp' (importRun true data resp db)
      = (importRun true data resp db, 0) := by
  have h0 := run_then_unchanged db data resp hwf hnd
  by_cases hd : data.isEmpty
  · have hdata : data = [] := by simpa using hd
    subst hdata
    simp [importRun, importRunFull]
  · simp [importRunFull, hd, h0]

/-- C9: the workflow never removes a link or tag row: every (contact,
tag) link and every tag row present before an importContacts run is still
present after it, including when linked contacts are re-upserted as
edited. -/
theorem links_never_removed (granted : Bool) (data : List DeviceContact)
    (resp : Nat → Option (List RawAIContact)) (db : DB) :
    (∀ pr, pr ∈ db.links → pr ∈ (importRun granted data resp db).links)
    ∧ (∀ r, r ∈ db.tags → r ∈ (importRun granted data resp db).tags) := by
  cases granted with
  | false => exact ⟨fun pr h => h, fun r h => h⟩
  | true =>
    by_cases hd : data.isEmpty
    · have h1 : importRun true data resp db = db := by
        simp [importRun, importRunFull, hd]
      rw [h1]
      exact ⟨fun pr h => h, fun r h => h⟩
    · by_cases hne : (newOrEditedOf db data).isEmpty
      · have h1 : importRun true data resp db = db := by
          simp [importRun, importRunFull, hd, hne]
        rw [h1]
        exact ⟨fun pr h => h, fun r h => h⟩
      · have h1 : importRun true data resp db
            = persistRun db (newOrEditedOf db data)
                (extractTagsFromAI (newOrEditedOf db data) (getAllTags db) resp).assignments := by
          simp [importRun, importRunFull, hd, hne]
        rw [h1]
        exact ⟨fun pr h => persistRun_links_mono db _ _ pr h,
               fun r h => persistRun_tags_mono db _ _ r h⟩

/-- C10: a tag name that is empty after trimming makes upsertTag return
null without inserting, and linking with a null tag id is a no-op; hence
after any writer run the tags table still has no empty-string name and
every link row still references an existing tag row. -/
theorem empty_tags_skipped (db : DB) (ne : List DeviceContact) (ex : List TagAssignment)
    (hclean : ∀ r ∈ db.tags, r.name ≠ "")
    (href : ∀ pr ∈ db.links, ∃ r ∈ db.tags, r.id = pr.2)
    (hnames : (db.tags.map (fun r => r.name)).Nodup)
    (hlinks : db.links.Nodup) :
    (∀ t, jsTrim t = "" → upsertTag db t = (none, db))
    ∧ (∀ cid, linkContactToTag db cid none = db)
    ∧ (∀ r ∈ (persistRun db ne ex).tags, r.name ≠ "")
    ∧ (∀ pr ∈ (persistRun db ne ex).links, ∃ r ∈ (persistRun db ne ex).tags, r.id = pr.2) := by
  have hinv' := persistRun_inv db ne ex ⟨hnames, hlinks, hclean, href⟩
  exact ⟨fun t ht => upsertTag_empty db t ht, fun cid => rfl, hinv'.2.2.1, hinv'.2.2.2⟩

-- ===== Concrete fixtures for witnesses =====

/-- The spec's example device contact A1. -/
def dcA : DeviceContact :=
  ⟨some "A1", some "Jane Smith Intel", some "Intel", some "Software Engineer", none⟩

/-- A store already holding contact A1 tagged "Intel". -/
def dbA : DB :=
  ⟨[⟨1, "A1", "Jane Smith Intel", "Intel", "Software Engineer", 0⟩],
   [⟨1, "Intel"⟩], [(1, 1)], 2, 2⟩

/-- A tagging service that always fails. -/
def respNone : Nat → Option (List RawAIContact) := fun _ => none

theorem dbA_writerInv : WriterInv dbA := by
  refine ⟨?_, ?_, ?_, ?_⟩ <;> decide

-- ===== Witnesses =====

theorem changeDetector_classifies_witness :
    newOrEditedOf emptyDB [dcA]
      = [dcA].filter (fun c =>
          match c.id with
          | none => false
          | some tid => decide (classify emptyDB c tid ≠ Classification.unchanged)) :=
  (changeDetector_classifies emptyDB [dcA] emptyDB_contactsWF).2

theorem batch_failure_isolated_witness :
    (batchOutputs (fun j => if j = 0 then none else respNone j) 0
        (chunksOf batchSize [dcA]).length).getD 0 [] = [] := by
  have h := (batch_failure_isolated [dcA] [] respNone 0).2.1 0 (by simp [chunksOf])
  simpa using h

theorem vocabulary_growth_witness :
    ((extractTagsFromAI [dcA] ["Intel"] respNone).requests.getD 0
        (BatchRequest.mk [] [])).existing_tags
      = addNewTags ["Intel"] (concatAll (batchTagLists respNone 0 0)) := by
  apply (vocabulary_growth [dcA] ["Intel"] respNone).1 0
  simp [extractTagsFromAI, extractGo, extractStep, respNone, batchSize]

theorem synthesizer_batching_witness :
    [dcA] ≠ [] ∧ ([dcA] : List DeviceContact).length ≤ batchSize := by
  apply (synthesizer_batching [dcA] [] respNone).2.2.1 [dcA]
  simp [chunksOf]

theorem tag_dedup_witness :
    upsertTag dbA "Intel" = (some 1, dbA) := by
  have h := (tag_dedup dbA [] [] dbA_writerInv).1 "Intel" ⟨1, "Intel"⟩
    (by decide) (by decide)
  simpa using h

theorem upsert_keyed_witness :
    upsertContact emptyDB dcA
      = { emptyDB with contacts := [deviceRow 1 "A1" dcA], nextContactId := 2 } := by
  have h := (upsert_keyed_by_true_id emptyDB dcA "A1" rfl emptyDB_contactsWF).1
    (by intro r hr; simp [emptyDB] at hr)
  simpa [emptyDB] using h

theorem import_idempotent_witness :
    importRunFull true [dcA] respNone (importRun true [dcA] respNone emptyDB)
      = (importRun true [dcA] respNone emptyDB, 0) :=
  import_idempotent emptyDB [dcA] respNone respNone emptyDB_contactsWF (by decide)

theorem links_never_removed_witness :
    (1, 1) ∈ (importRun true [] respNone dbA).links :=
  (links_never_removed true [] respNone dbA).1 (1, 1) (by decide)

theorem empty_tags_skipped_witness :
    upsertTag dbA "   " = (none, dbA) :=
  (empty_tags_skipped dbA [] [] (by decide) (by decide) (by decide) (by decide)).1
    "   " (by decide)
